import Mathlib

/-!
Shallow embedding of the conjurinc/cauldron secret-injection tool.

The repository runs a subcommand with an environment populated with secret
values.  The files embedded here are `internal/command/subcommand_windows.go`
(the spawn-and-signal-relay subcommand runner) and the functions exercised by
the test file in `provider/README.md`: `returnStatusOfError`,
`findInParentTree`, `joinEnv`, `printProviderVersions`, and default-value
resolution for manifest entries.  Functions whose implementation is not among
the repository files are modelled from the specification and are marked as
such in their doc comments.
-/

namespace Cauldron

/-- Go `error` values as the program distinguishes them: an
`exec.ExitError` carrying a child exit status, or any other error carrying
a message. -/
inductive GoError where
  | exitError (code : Nat)
  | other (msg : String)
deriving DecidableEq

/-- POSIX signal numbers. -/
abbrev Signal := Nat

/-- Go `syscall.SIGKILL`. -/
def SIGKILL : Signal := 9

/-- Where a standard stream of the spawned child is connected.  A Go
`exec.Cmd` leaves the stream on the null device when the field is nil;
`runSubcommand` assigns `os.Stdin`, `os.Stdout` and `os.Stderr`. -/
inductive StdStream where
  | devNull
  | parentStdin
  | parentStdout
  | parentStderr
deriving DecidableEq

/-- A Go `exec.Cmd.Env` value: nil (`inherited`) makes the child inherit
the parent process environment; a non-nil list replaces it entirely. -/
inductive EnvSpec where
  | inherited
  | explicit (env : List String)
deriving DecidableEq

/-- The environment the spawned child actually receives, given the parent
process environment: the semantics of the `Env` field of a Go `exec.Cmd`. -/
def childEnv (parentEnv : List String) : EnvSpec → List String
  | .inherited => parentEnv
  | .explicit e => e

/-- The fields of the `exec.Cmd` that `runSubcommand` builds before
starting the child: binary path, arguments, standard streams and
environment. -/
structure SpawnConfig where
  binary : String
  args : List String
  stdin : StdStream
  stdout : StdStream
  stderr : StdStream
  env : EnvSpec
deriving DecidableEq

/-- Outcomes of the external operations `runSubcommand` performs, fixed in
advance so that the embedding is a pure function: the result of
`exec.LookPath`, of `Start`, of `Wait`, and the trace of parent signals
delivered on the relay channel while the child is in the `Running`
state. -/
structure World where
  lookPath : String → Except GoError String
  startResult : Except GoError Unit
  waitResult : Option GoError
  signalsWhileRunning : List Signal

/-- The signal-relay task of `runSubcommand`: its loop body receives one
parent signal from the channel and sends exactly that signal to the child
(`runner.Process.Signal(receivedSignal)`).  Over a trace of received
signals it yields the trace of signals sent to the child. -/
def relaySignals : List Signal → List Signal
  | [] => []
  | s :: rest => s :: relaySignals rest

/-- What one run of `runSubcommand` does: the spawn configuration it built
(present once executable lookup succeeded), whether the child entered the
`Running` state, the signals sent to the child while it was running, the
signals sent after `Wait` returned, and the returned Go error. -/
structure RunTrace where
  spawned : Option SpawnConfig
  started : Bool
  sentWhileRunning : List Signal
  sentAfterWait : List Signal
  result : Option GoError
deriving DecidableEq

/-- Shallow embedding of `runSubcommand`
(src/internal/command/subcommand_windows.go).  The function indexes
`command[0]` with no emptiness check, so `none` stands for the Go panic on
an empty argument vector; otherwise the trace of the run is returned.
Lookup failure and start failure return that error with nothing spawned
resp. started; once the child runs, the relay forwards the delivered
signals, and a wait failure sends SIGKILL and returns the wait error. -/
def runSubcommand (command : List String) (env : List String) (w : World) :
    Option RunTrace :=
  match command with
  | [] => none
  | arg0 :: rest =>
    some (match w.lookPath arg0 with
    | .error e =>
      { spawned := none, started := false, sentWhileRunning := [],
        sentAfterWait := [], result := some e }
    | .ok binary =>
      let cfg : SpawnConfig :=
        { binary := binary, args := rest, stdin := .parentStdin,
          stdout := .parentStdout, stderr := .parentStderr,
          env := .explicit env }
      match w.startResult with
      | .error e =>
        { spawned := some cfg, started := false, sentWhileRunning := [],
          sentAfterWait := [], result := some e }
      | .ok _ =>
        match w.waitResult with
        | some waitErr =>
          { spawned := some cfg, started := true,
            sentWhileRunning := relaySignals w.signalsWhileRunning,
            sentAfterWait := [SIGKILL], result := some waitErr }
        | none =>
          { spawned := some cfg, started := true,
            sentWhileRunning := relaySignals w.signalsWhileRunning,
            sentAfterWait := [], result := none })

/-- Modelled from the spec: `returnStatusOfError` is not among the
repository files (only its tests are).  Per the spec, no error maps to
status 0 and no error; a child-process exit error maps to its exit status
and no error; any other error is returned unchanged. -/
def returnStatusOfError : Option GoError → Nat × Option GoError
  | none => (0, none)
  | some (.exitError code) => (code, none)
  | some (.other msg) => (0, some (.other msg))

/-- A directory as its path components, innermost component first; `[]` is
the filesystem root.  The parent of `c :: parent` is `parent`. -/
abbrev Dir := List String

/-- Rendering of a directory as an absolute path. -/
def dirPath : Dir → String
  | [] => "/"
  | ds => "/" ++ String.intercalate "/" ds.reverse

/-- The `filepath.Join` of a directory and a relative leaf name. -/
def joinPath (d : Dir) (leaf : String) : String :=
  match d with
  | [] => "/" ++ leaf
  | _ => dirPath d ++ "/" ++ leaf

/-- Whether a file name is absolute (`filepath.IsAbs` on a Unix path): its
first character is the path separator. -/
def isAbsolute (leaf : String) : Bool :=
  match leaf.data with
  | [] => false
  | c :: _ => c = '/'

/-- A filesystem, as the predicate telling whether the named file exists in
a directory (a successful `os.Stat` of the joined path). -/
abbrev FileSys := Dir → String → Bool

/-- Modelled from the spec: the ascent loop of `findInParentTree` (the
function is not among the repository files, only its tests are).  In the
current directory, test for the file and return the joined path on a hit;
on a miss at the root, fail with the not-found error naming the original
filename; otherwise continue in the parent directory. -/
def findLoop (fs : FileSys) (leaf : String) : Dir → Except String String
  | [] =>
    if fs [] leaf then .ok (joinPath [] leaf)
    else .error ("unable to locate file specified (" ++ leaf ++
      "): reached root of file system")
  | c :: parent =>
    if fs (c :: parent) leaf then .ok (joinPath (c :: parent) leaf)
    else findLoop fs leaf parent

/-- Modelled from the spec: `findInParentTree` (not among the repository
files, only its tests are).  An absolute leaf name is rejected before any
filesystem access, with an error naming the path; otherwise the starting
directory and each ancestor up to the root are searched and the first
matching absolute path is returned. -/
def findInParentTree (fs : FileSys) (leaf : String) (start : Dir) :
    Except String String :=
  if isAbsolute leaf then
    .error ("file specified (" ++ leaf ++
      ") is an absolute path: will not recurse up")
  else findLoop fs leaf start

/-- The material-type tags a manifest entry can carry: environment
variable, temporary file, or a default value carrying its fallback
literal. -/
inductive YamlTag where
  | var
  | file
  | defaultValue (literal : String)
deriving DecidableEq

/-- The first default-value literal among an entry's tags, if any. -/
def defaultLiteral : List YamlTag → Option String
  | [] => none
  | .defaultValue lit :: _ => some lit
  | .var :: rest => defaultLiteral rest
  | .file :: rest => defaultLiteral rest

/-- A deserialized manifest entry: its tags and the explicit literal
value, when the manifest supplies one. -/
structure ManifestEntry where
  tags : List YamlTag
  literal : Option String
deriving DecidableEq

/-- Modelled from the spec: resolution of the literal value of a manifest
entry that may carry a default-value tag (the secretsyml parser is not
among the repository files, only its tests are).  An explicit literal wins
over the default; with no explicit literal, the default-value tag supplies
the fallback literal. -/
def resolveLiteral (e : ManifestEntry) : Option String :=
  match e.literal with
  | some v => some v
  | none => defaultLiteral e.tags

/-- Lexicographic ordering test on character lists: true when the first
list is less than or equal to the second. -/
def listLEb : List Char → List Char → Bool
  | [], _ => true
  | _ :: _, [] => false
  | c :: cs, d :: ds =>
    if c < d then true
    else if d < c then false
    else listLEb cs ds

/-- Lexicographic ordering test on strings. -/
def strLEb (a b : String) : Bool := listLEb a.data b.data

/-- Ordering test on key-value pairs by their string key. -/
def keyLEb {α : Type} (p q : String × α) : Bool := strLEb p.1 q.1

/-- Ordered insertion of a key-value pair into a list sorted by key. -/
def insertByKey {α : Type} (p : String × α) :
    List (String × α) → List (String × α)
  | [] => [p]
  | q :: rest =>
    if keyLEb p q then p :: q :: rest else q :: insertByKey p rest

/-- The entries of a mapping arranged by key in ascending lexicographic
order (insertion sort). -/
def sortByKey {α : Type} : List (String × α) → List (String × α)
  | [] => []
  | p :: rest => insertByKey p (sortByKey rest)

/-- Concatenation of a list of lines into one string. -/
def concatLines : List String → String
  | [] => ""
  | l :: rest => l ++ concatLines rest

/-- One serialized environment line: KEY=VALUE terminated by a newline. -/
def envLine (p : String × String) : String := p.1 ++ "=" ++ p.2 ++ "\n"

/-- Modelled from the spec: `joinEnv` (not among the repository files, only
its tests are).  Serializes an environment mapping for display as
newline-terminated KEY=VALUE lines with the keys in sorted order. -/
def joinEnv (env : List (String × String)) : String :=
  concatLines ((sortByKey env).map envLine)

/-- Removal of one trailing newline from a string, if present: the
treatment a provider's version output receives before being reported. -/
def stripTrailingNewline (s : String) : String :=
  match s.data.reverse with
  | '\n' :: rest => ⟨rest.reverse⟩
  | _ => s

/-- The body of the line `printProviderVersions` reports for one provider,
given the outcome of invoking it with the version flag (`none` when the
invocation fails).  A failed invocation, or one whose output is unusable
(empty once its trailing newline is stripped), is reported with the
unknown-version marker instead of failing the enumeration. -/
def versionBody (name : String) (queryResult : Option String) : String :=
  match queryResult with
  | none => name ++ ": unknown version"
  | some out =>
    if stripTrailingNewline out = "" then name ++ ": unknown version"
    else name ++ " " ++ stripTrailingNewline out

/-- Modelled from the spec: one reported provider line, newline
terminated. -/
def versionLine (name : String) (queryResult : Option String) : String :=
  versionBody name queryResult ++ "\n"

/-- Modelled from the spec: `printProviderVersions` (not among the
repository files, only its tests are).  A provider directory is given as
the list of provider names with each one's version-query outcome; the
report is a header line naming the directory followed by one line per
provider in lexicographic name order. -/
def printProviderVersions (path : String)
    (dir : List (String × Option String)) : String :=
  "Provider versions in " ++ path ++ ":\n" ++
    concatLines ((sortByKey dir).map (fun p => versionLine p.1 p.2))

/-- The provider directory of the repository's version-enumeration test:
one provider reporting a version, one whose version query fails, and one
whose version output carries a trailing newline. -/
def testVersionsDir : List (String × Option String) :=
  [("testprovider", some "version 1.2.3"),
   ("testprovider-noversionsupport", none),
   ("testprovider-trailingnewline", some "version 3.2.1\n")]

/-- A concrete filesystem used to evaluate the manifest-locator model: the
file test.txt exists in the directory /summonTop and nowhere else. -/
def demoFs : FileSys :=
  fun d leaf => decide (d = ["summonTop"]) && decide (leaf = "test.txt")

/-- A concrete world for evaluating `runSubcommand`: lookup and start
succeed, the wait succeeds, and two signals arrive while the child runs. -/
def demoWorld : World where
  lookPath := fun _ => .ok "/bin/cmd"
  startResult := .ok ()
  waitResult := none
  signalsWhileRunning := [2, 15]

/-- A concrete world for evaluating `runSubcommand` whose wait fails with
a non-exit error. -/
def demoWorldWaitFail : World where
  lookPath := fun _ => .ok "/bin/cmd"
  startResult := .ok ()
  waitResult := some (.other "wait failed")
  signalsWhileRunning := []

/-- The spawn configuration `runSubcommand` builds in the demo worlds for
the command cmd a and the environment SECRET=s. -/
def demoCfg : SpawnConfig where
  binary := "/bin/cmd"
  args := ["a"]
  stdin := .parentStdin
  stdout := .parentStdout
  stderr := .parentStderr
  env := .explicit ["SECRET=s"]

/-- The trace of `runSubcommand ["cmd", "a"] ["SECRET=s"] demoWorld`. -/
def demoTrace : RunTrace where
  spawned := some demoCfg
  started := true
  sentWhileRunning := [2, 15]
  sentAfterWait := []
  result := none

/-- The trace of `runSubcommand ["cmd", "a"] ["SECRET=s"]
demoWorldWaitFail`. -/
def demoTraceWaitFail : RunTrace where
  spawned := some demoCfg
  started := true
  sentWhileRunning := []
  sentAfterWait := [SIGKILL]
  result := some (.other "wait failed")

/-! ### Theorems -/

/-- Every trace of received signals is relayed to the child unchanged. -/
theorem relaySignals_id (sigs : List Signal) : relaySignals sigs = sigs := by
  induction sigs with
  | nil => rfl
  | cons s rest ih => simp [relaySignals, ih]

/-- C1: `returnStatusOfError` applied to a nil error returns status 0 and
no error; applied to a child-process exit error whose exit code is 1 it
returns status 1 and no error; applied to any other (non-exit) error it
returns that same error unchanged. -/
theorem returnStatusOfError_spec :
    returnStatusOfError none = (0, none) ∧
    returnStatusOfError (some (.exitError 1)) = (1, none) ∧
    ∀ msg, (returnStatusOfError (some (.other msg))).2 = some (.other msg) := by
  refine ⟨rfl, rfl, fun msg => rfl⟩

/-- C10: `runSubcommand` indexes the first element of the command list
with no emptiness check before looking up the executable; the run is
well-defined (no out-of-bounds access, modelled as `none`) exactly when
the command list is non-empty. -/
theorem runSubcommand_needs_nonempty_command (command env : List String)
    (w : World) :
    (runSubcommand command env w).isSome = true ↔ command ≠ [] := by
  cases command with
  | nil => simp [runSubcommand]
  | cons arg0 rest => simp [runSubcommand]

/-- C2: every signal delivered to the parent while the child subcommand is
in the `Running` state is forwarded to the child unchanged, and the relay
covers the whole trace of the `Running` state: the signals sent to the
running child are exactly the delivered ones, element for element. -/
theorem runSubcommand_forwards_signals (command env : List String)
    (w : World) (t : RunTrace)
    (hrun : runSubcommand command env w = some t)
    (hstarted : t.started = true) :
    t.sentWhileRunning = w.signalsWhileRunning ∧
    ∀ i, i < w.signalsWhileRunning.length →
      t.sentWhileRunning.get? i = w.signalsWhileRunning.get? i := by
  cases command with
  | nil => simp [runSubcommand] at hrun
  | cons arg0 rest =>
    simp only [runSubcommand] at hrun
    cases hl : w.lookPath arg0 with
    | error e =>
      rw [hl] at hrun
      simp only [Option.some_inj] at hrun
      rw [← hrun] at hstarted
      simp at hstarted
    | ok binary =>
      rw [hl] at hrun
      cases hs : w.startResult with
      | error e =>
        rw [hs] at hrun
        simp only [Option.some_inj] at hrun
        rw [← hrun] at hstarted
        simp at hstarted
      | ok u =>
        rw [hs] at hrun
        cases hw : w.waitResult with
        | some waitErr =>
          rw [hw] at hrun
          simp only [Option.some_inj] at hrun
          rw [← hrun]
          simp [relaySignals_id]
        | none =>
          rw [hw] at hrun
          simp only [Option.some_inj] at hrun
          rw [← hrun]
          simp [relaySignals_id]

/-- C2 witness: a concrete run in which the child starts, two signals are
delivered while it runs, and both are forwarded unchanged. -/
theorem runSubcommand_forwards_signals_witness :
    demoTrace.sentWhileRunning = demoWorld.signalsWhileRunning ∧
    ∀ i, i < demoWorld.signalsWhileRunning.length →
      demoTrace.sentWhileRunning.get? i =
        demoWorld.signalsWhileRunning.get? i :=
  runSubcommand_forwards_signals ["cmd", "a"] ["SECRET=s"] demoWorld
    demoTrace rfl rfl

/-- C3: when waiting on the started child fails, `runSubcommand` sends
SIGKILL to the child and returns the wait error itself as the tool error,
not an exit code: the returned value is the unchanged wait error. -/
theorem runSubcommand_wait_failure_kills (command env : List String)
    (w : World) (t : RunTrace) (e : GoError)
    (hrun : runSubcommand command env w = some t)
    (hstarted : t.started = true)
    (hwait : w.waitResult = some e) :
    t.sentAfterWait = [SIGKILL] ∧ t.result = some e := by
  cases command with
  | nil => simp [runSubcommand] at hrun
  | cons arg0 rest =>
    simp only [runSubcommand] at hrun
    cases hl : w.lookPath arg0 with
    | error e2 =>
      rw [hl] at hrun
      simp only [Option.some_inj] at hrun
      rw [← hrun] at hstarted
      simp at hstarted
    | ok binary =>
      rw [hl] at hrun
      cases hs : w.startResult with
      | error e2 =>
        rw [hs] at hrun
        simp only [Option.some_inj] at hrun
        rw [← hrun] at hstarted
        simp at hstarted
      | ok u =>
        rw [hs, hwait] at hrun
        simp only [Option.some_inj] at hrun
        rw [← hrun]
        exact ⟨rfl, rfl⟩

/-- C3 witness: a concrete run whose wait fails with a non-exit error; the
child is sent SIGKILL and the same error is returned. -/
theorem runSubcommand_wait_failure_kills_witness :
    demoTraceWaitFail.sentAfterWait = [SIGKILL] ∧
    demoTraceWaitFail.result = some (.other "wait failed") :=
  runSubcommand_wait_failure_kills ["cmd", "a"] ["SECRET=s"]
    demoWorldWaitFail demoTraceWaitFail (.other "wait failed") rfl rfl rfl

/-- C4: the spawn configuration `runSubcommand` builds connects the
child's standard input, output and error directly to the parent's, and
its environment field entirely replaces the child environment with the
assembled one: whatever the parent environment is, the child receives
exactly the passed environment. -/
theorem runSubcommand_env_replaces (command env : List String)
    (w : World) (t : RunTrace) (cfg : SpawnConfig)
    (hrun : runSubcommand command env w = some t)
    (hspawn : t.spawned = some cfg) :
    (∀ parentEnv, childEnv parentEnv cfg.env = env) ∧
    cfg.stdin = .parentStdin ∧ cfg.stdout = .parentStdout ∧
    cfg.stderr = .parentStderr := by
  cases command with
  | nil => simp [runSubcommand] at hrun
  | cons arg0 rest =>
    simp only [runSubcommand] at hrun
    cases hl : w.lookPath arg0 with
    | error e =>
      rw [hl] at hrun
      simp only [Option.some_inj] at hrun
      rw [← hrun] at hspawn
      simp at hspawn
    | ok binary =>
      rw [hl] at hrun
      have hcfg : cfg =
          ⟨binary, rest, .parentStdin, .parentStdout, .parentStderr,
            .explicit env⟩ := by
        cases hs : w.startResult with
        | error e =>
          rw [hs] at hrun
          simp only [Option.some_inj] at hrun
          rw [← hrun] at hspawn
          simpa using hspawn.symm
        | ok u =>
          rw [hs] at hrun
          cases hw : w.waitResult with
          | some waitErr =>
            rw [hw] at hrun
            simp only [Option.some_inj] at hrun
            rw [← hrun] at hspawn
            simpa using hspawn.symm
          | none =>
            rw [hw] at hrun
            simp only [Option.some_inj] at hrun
            rw [← hrun] at hspawn
            simpa using hspawn.symm
      rw [hcfg]
      exact ⟨fun parentEnv => rfl, rfl, rfl, rfl⟩

/-- C4 witness: a concrete spawn whose configuration carries the passed
environment and the parent's standard streams; the child environment is
the passed one whatever the parent environment is. -/
theorem runSubcommand_env_replaces_witness :
    (∀ parentEnv, childEnv parentEnv demoCfg.env = ["SECRET=s"]) ∧
    demoCfg.stdin = .parentStdin ∧ demoCfg.stdout = .parentStdout ∧
    demoCfg.stderr = .parentStderr :=
  runSubcommand_env_replaces ["cmd", "a"] ["SECRET=s"] demoWorld demoTrace
    demoCfg rfl rfl

/-- A hit in the current directory ends the ascent with the joined path. -/
theorem findLoop_here (fs : FileSys) (leaf : String) (d : Dir)
    (h : fs d leaf = true) : findLoop fs leaf d = .ok (joinPath d leaf) := by
  cases d with
  | nil => simp [findLoop, h]
  | cons c parent => simp [findLoop, h]

/-- When the file is missed in every directory strictly below an ancestor
and is present in the ancestor, the ascent returns the ancestor's path. -/
theorem findLoop_ancestor (fs : FileSys) (leaf : String) (anc : Dir) :
    ∀ extra : Dir,
      (∀ k, k < extra.length → fs (List.drop k extra ++ anc) leaf = false) →
      fs anc leaf = true →
      findLoop fs leaf (extra ++ anc) = .ok (joinPath anc leaf) := by
  intro extra
  induction extra with
  | nil =>
    intro _ h
    simpa using findLoop_here fs leaf anc h
  | cons c rest ih =>
    intro hmiss h
    have h0 : fs (c :: (rest ++ anc)) leaf = false := by
      have h00 := hmiss 0 (by simp)
      simpa using h00
    have hrec := ih (fun k hk => by
      have hk1 := hmiss (k + 1) (by simpa using Nat.succ_lt_succ hk)
      simpa using hk1) h
    simp [findLoop, h0, hrec]

/-- C5: for a relative filename, `findInParentTree` searches the starting
directory and then each ancestor up to the root and returns the first
matching absolute path: a hit directly in the starting directory returns
that path, and a file present only in an ancestor of a deep descendant
starting directory returns the ancestor's path. -/
theorem findInParentTree_first_match (fs : FileSys) (leaf : String)
    (hrel : isAbsolute leaf = false) :
    (∀ start : Dir, fs start leaf = true →
      findInParentTree fs leaf start = .ok (joinPath start leaf)) ∧
    (∀ anc extra : Dir,
      (∀ k, k < extra.length → fs (List.drop k extra ++ anc) leaf = false) →
      fs anc leaf = true →
      findInParentTree fs leaf (extra ++ anc) = .ok (joinPath anc leaf)) := by
  constructor
  · intro start h
    simpa [findInParentTree, hrel] using findLoop_here fs leaf start h
  · intro anc extra hmiss h
    simpa [findInParentTree, hrel] using
      findLoop_ancestor fs leaf anc extra hmiss h

/-- C5 witness: on the concrete filesystem where /summonTop/test.txt is
the only file, the search from /summonTop itself and the search from the
deep descendant /summonTop/dir1/dir2/dir3 both return
/summonTop/test.txt. -/
theorem findInParentTree_first_match_witness :
    findInParentTree demoFs "test.txt" ["summonTop"] =
      .ok (joinPath ["summonTop"] "test.txt") ∧
    findInParentTree demoFs "test.txt"
      (["dir3", "dir2", "dir1"] ++ ["summonTop"]) =
      .ok (joinPath ["summonTop"] "test.txt") := by
  refine ⟨?_, ?_⟩
  · exact (findInParentTree_first_match demoFs "test.txt" (by decide)).1
      ["summonTop"] (by decide)
  · exact (findInParentTree_first_match demoFs "test.txt" (by decide)).2
      ["summonTop"] ["dir3", "dir2", "dir1"] (by decide) (by decide)

/-- C6: for an absolute input path, `findInParentTree` fails immediately
with a descriptive error naming that path, and the result does not depend
on the filesystem or the starting directory at all: no filesystem access
is performed. -/
theorem findInParentTree_rejects_absolute (leaf : String)
    (habs : isAbsolute leaf = true) :
    ∀ (fs fs2 : FileSys) (start start2 : Dir),
      findInParentTree fs leaf start =
        .error ("file specified (" ++ leaf ++
          ") is an absolute path: will not recurse up") ∧
      findInParentTree fs leaf start = findInParentTree fs2 leaf start2 := by
  intro fs fs2 start start2
  exact ⟨by simp [findInParentTree, habs], by simp [findInParentTree, habs]⟩

/-- C6 witness: the absolute input of the repository's test is rejected
with the error naming the path. -/
theorem findInParentTree_rejects_absolute_witness :
    findInParentTree demoFs "/foo/bar/baz" ["summonTop"] =
      .error ("file specified (" ++ "/foo/bar/baz" ++
        ") is an absolute path: will not recurse up") :=
  (findInParentTree_rejects_absolute "/foo/bar/baz" (by decide) demoFs
    demoFs ["summonTop"] []).1

/-- C7: a manifest entry carrying a default-value tag resolves to the
default literal when no explicit literal is present, and to the explicit
literal when one is present: the explicit literal always wins. -/
theorem resolveLiteral_default_spec (tags : List YamlTag) (d : String)
    (hd : defaultLiteral tags = some d) :
    resolveLiteral ⟨tags, none⟩ = some d ∧
    ∀ v, resolveLiteral ⟨tags, some v⟩ = some v := by
  exact ⟨by simp [resolveLiteral, hd], fun v => rfl⟩

/-- C7 witness: the repository's default-resolution tests, with the
default literal defaultValueOfVariable and the explicit literal
valueOfVariable. -/
theorem resolveLiteral_default_spec_witness :
    resolveLiteral ⟨[.defaultValue "defaultValueOfVariable"], none⟩ =
      some "defaultValueOfVariable" ∧
    resolveLiteral ⟨[.defaultValue "defaultValueOfVariable"],
      some "valueOfVariable"⟩ = some "valueOfVariable" := by
  have h := resolveLiteral_default_spec
    [.defaultValue "defaultValueOfVariable"] "defaultValueOfVariable" rfl
  exact ⟨h.1, h.2 "valueOfVariable"⟩

/-- String concatenation reassociated around a trailing newline. -/
theorem append_newline_assoc (a b : String) :
    a ++ (b ++ "\n") = (a ++ b) ++ "\n" :=
  (String.append_assoc a b "\n").symm

/-- The lexicographic test is total: of two character lists, one is less
than or equal to the other. -/
theorem listLEb_total : ∀ cs ds : List Char,
    listLEb cs ds = true ∨ listLEb ds cs = true := by
  intro cs
  induction cs with
  | nil =>
    intro ds
    exact .inl rfl
  | cons c cs ih =>
    intro ds
    cases ds with
    | nil => exact .inr rfl
    | cons d ds =>
      rcases lt_trichotomy c d with h | h | h
      · exact .inl (by simp [listLEb, h])
      · subst h
        rcases ih ds with h2 | h2
        · exact .inl (by simp [listLEb, lt_irrefl]; exact h2)
        · exact .inr (by simp [listLEb, lt_irrefl]; exact h2)
      · exact .inr (by simp [listLEb, h])

/-- The lexicographic test is transitive. -/
theorem listLEb_trans : ∀ as bs cs : List Char,
    listLEb as bs = true → listLEb bs cs = true →
    listLEb as cs = true := by
  intro as
  induction as with
  | nil =>
    intro bs cs _ _
    rfl
  | cons a as ih =>
    intro bs cs h1 h2
    cases bs with
    | nil => simp [listLEb] at h1
    | cons b bs =>
      cases cs with
      | nil => simp [listLEb] at h2
      | cons c cs =>
        rcases lt_trichotomy a b with hab | hab | hab
        · rcases lt_trichotomy b c with hbc | hbc | hbc
          · simp [listLEb, lt_trans hab hbc]
          · subst hbc
            simp [listLEb, hab]
          · exfalso
            simp [listLEb, asymm hbc, hbc] at h2
        · subst hab
          rcases lt_trichotomy a c with hac | hac | hac
          · simp [listLEb, hac]
          · subst hac
            simp [listLEb, lt_irrefl] at h1 h2 ⊢
            exact ih bs cs h1 h2
          · exfalso
            simp [listLEb, asymm hac, hac] at h2
        · exfalso
          simp [listLEb, asymm hab, hab] at h1

/-- A list lexicographically at most another is not lexicographically
above it. -/
theorem listLEb_not_lex : ∀ cs ds : List Char, listLEb cs ds = true →
    ¬ List.Lex (fun a b : Char => a < b) ds cs := by
  intro cs
  induction cs with
  | nil =>
    intro ds h hlex
    cases hlex
  | cons c cs ih =>
    intro ds h hlex
    cases ds with
    | nil => simp [listLEb] at h
    | cons d ds =>
      cases hlex with
      | cons hlex2 =>
        simp [listLEb, lt_irrefl] at h
        exact ih ds h hlex2
      | rel hr =>
        simp [listLEb, asymm hr, hr] at h

/-- The boolean lexicographic test implies the order on strings. -/
theorem strLEb_le (a b : String) (h : strLEb a b = true) : a ≤ b := by
  rw [String.le_iff_toList_le]
  apply le_of_not_lt
  intro hlt
  exact listLEb_not_lex a.data b.data h hlt

/-- Ordered insertion is a permutation of pushing in front. -/
theorem insertByKey_perm {α : Type} (p : String × α) :
    ∀ l : List (String × α), (insertByKey p l).Perm (p :: l) := by
  intro l
  induction l with
  | nil => exact List.Perm.refl _
  | cons q rest ih =>
    by_cases h : keyLEb p q = true
    · rw [insertByKey, if_pos h]
    · rw [insertByKey, if_neg h]
      exact (ih.cons q).trans (List.Perm.swap p q rest)

/-- Ordered insertion preserves pairwise key order. -/
theorem insertByKey_pairwise {α : Type} (p : String × α) :
    ∀ l : List (String × α),
      List.Pairwise (fun a b => keyLEb a b = true) l →
      List.Pairwise (fun a b => keyLEb a b = true) (insertByKey p l) := by
  intro l
  induction l with
  | nil =>
    intro _
    simp [insertByKey]
  | cons q rest ih =>
    intro hl
    rw [List.pairwise_cons] at hl
    obtain ⟨hq, hrest⟩ := hl
    by_cases h : keyLEb p q = true
    · rw [insertByKey, if_pos h, List.pairwise_cons]
      refine ⟨?_, List.Pairwise.cons hq hrest⟩
      intro x hx
      rcases List.mem_cons.mp hx with rfl | hx2
      · exact h
      · exact listLEb_trans p.1.data q.1.data x.1.data h (hq x hx2)
    · rw [insertByKey, if_neg h, List.pairwise_cons]
      refine ⟨?_, ih hrest⟩
      intro x hx
      rcases List.mem_cons.mp ((insertByKey_perm p rest).mem_iff.mp hx)
        with rfl | hx2
      · rcases listLEb_total q.1.data x.1.data with h2 | h2
        · exact h2
        · exact absurd h2 h
      · exact hq x hx2

/-- Arranging a mapping by key permutes its entries and loses none. -/
theorem sortByKey_perm {α : Type} (l : List (String × α)) :
    (sortByKey l).Perm l := by
  induction l with
  | nil => exact List.Perm.refl _
  | cons p rest ih =>
    exact (insertByKey_perm p (sortByKey rest)).trans (ih.cons p)

/-- The arranged mapping is pairwise ordered by the key test. -/
theorem sortByKey_pairwise {α : Type} (l : List (String × α)) :
    List.Pairwise (fun a b => keyLEb a b = true) (sortByKey l) := by
  induction l with
  | nil => exact List.Pairwise.nil
  | cons p rest ih => exact insertByKey_pairwise p (sortByKey rest) ih

/-- The key sequence of a mapping arranged by `sortByKey` is sorted. -/
theorem sortByKey_keys_sorted {α : Type} (l : List (String × α)) :
    List.Sorted (fun a b : String => a ≤ b) ((sortByKey l).map Prod.fst) :=
  List.Pairwise.map Prod.fst (fun a b h => strLEb_le a.1 b.1 h)
    (sortByKey_pairwise l)

/-- Concatenating a non-empty list of newline-terminated lines yields a
string with a final trailing newline. -/
theorem concatLines_trailing (lines : List String) :
    (∀ line ∈ lines, ∃ s, line = s ++ "\n") → lines ≠ [] →
    ∃ s, concatLines lines = s ++ "\n" := by
  induction lines with
  | nil =>
    intro _ hne
    exact absurd rfl hne
  | cons l rest ih =>
    intro h _
    obtain ⟨s, hs⟩ := h l (by simp)
    cases rest with
    | nil =>
      refine ⟨s, ?_⟩
      rw [concatLines, concatLines, hs, String.append_empty]
    | cons l2 rest2 =>
      obtain ⟨t, ht⟩ := ih (fun x hx => h x (by simp [hx])) (by simp)
      refine ⟨l ++ t, ?_⟩
      rw [concatLines, ht, append_newline_assoc]

/-- C8: the serialized display form produced by `joinEnv` consists of one
KEY=VALUE line per entry, with keys in sorted order, each line terminated
by a newline, including a final trailing newline after the last entry. -/
theorem joinEnv_spec (env : List (String × String)) :
    joinEnv env = concatLines ((sortByKey env).map envLine) ∧
    ((sortByKey env).map envLine).length = env.length ∧
    (sortByKey env).Perm env ∧
    List.Sorted (fun a b => a ≤ b) ((sortByKey env).map Prod.fst) ∧
    (∀ p, envLine p = p.1 ++ "=" ++ p.2 ++ "\n") ∧
    (∀ line ∈ (sortByKey env).map envLine, ∃ s, line = s ++ "\n") ∧
    (env ≠ [] → ∃ s, joinEnv env = s ++ "\n") := by
  have hperm := sortByKey_perm env
  have hlines : ∀ line ∈ (sortByKey env).map envLine,
      ∃ s, line = s ++ "\n" := by
    intro line hl
    obtain ⟨p, _, rfl⟩ := List.mem_map.mp hl
    exact ⟨p.1 ++ "=" ++ p.2, rfl⟩
  refine ⟨rfl, by rw [List.length_map, hperm.length_eq], hperm,
    sortByKey_keys_sorted env, fun p => rfl, hlines, ?_⟩
  intro hne
  have hmapne : (sortByKey env).map envLine ≠ [] := by
    intro h0
    rw [List.map_eq_nil_iff] at h0
    exact hne (List.Perm.nil_eq (h0 ▸ hperm)).symm
  exact concatLines_trailing _ hlines hmapne

/-- Every reported provider line is newline terminated. -/
theorem versionLine_trailing (name : String) (q : Option String) :
    ∃ s, versionLine name q = s ++ "\n" :=
  ⟨versionBody name q, rfl⟩

set_option maxRecDepth 8192 in
/-- C9 counterexample: on the version-enumeration test's provider
directory, the aggregate output of `printProviderVersions` is the test's
expected string and still ends with a trailing newline (stripping a
trailing newline changes it), so the trailing newline is not trimmed from
the aggregate output as the claim states. -/
theorem printProviderVersions_keeps_aggregate_newline :
    printProviderVersions "/summon/internal/command/testversions"
        testVersionsDir =
      "Provider versions in /summon/internal/command/testversions:\n" ++
        "testprovider version 1.2.3\n" ++
        "testprovider-noversionsupport: unknown version\n" ++
        "testprovider-trailingnewline version 3.2.1\n" ∧
    stripTrailingNewline (printProviderVersions
        "/summon/internal/command/testversions" testVersionsDir) ≠
      printProviderVersions "/summon/internal/command/testversions"
        testVersionsDir := by
  exact ⟨by decide, by decide⟩

/-- C9 amended: `printProviderVersions` reports one result per provider
per line in lexicographic provider-name order, reports a provider whose
version query fails or yields no usable output with an unknown-version
marker instead of failing the enumeration, and trims the trailing newline
from each provider's individual version output; the aggregate output ends
with a single trailing newline, which is not trimmed. -/
theorem printProviderVersions_spec (path : String)
    (dir : List (String × Option String)) :
    printProviderVersions path dir =
      "Provider versions in " ++ path ++ ":\n" ++
        concatLines ((sortByKey dir).map (fun p => versionLine p.1 p.2)) ∧
    ((sortByKey dir).map (fun p => versionLine p.1 p.2)).length =
      dir.length ∧
    (sortByKey dir).Perm dir ∧
    List.Sorted (fun a b => a ≤ b) ((sortByKey dir).map Prod.fst) ∧
    (∀ name, versionLine name none = name ++ ": unknown version" ++ "\n") ∧
    (∀ name out, stripTrailingNewline out = "" →
      versionLine name (some out) = name ++ ": unknown version" ++ "\n") ∧
    (∀ name out, stripTrailingNewline out ≠ "" →
      versionLine name (some out) =
        name ++ " " ++ stripTrailingNewline out ++ "\n") ∧
    ∃ s, printProviderVersions path dir = s ++ "\n" := by
  have hperm := sortByKey_perm dir
  refine ⟨rfl, by rw [List.length_map, hperm.length_eq], hperm,
    sortByKey_keys_sorted dir, fun name => rfl, ?_, ?_, ?_⟩
  · intro name out h
    rw [versionLine, versionBody, if_pos h]
  · intro name out h
    rw [versionLine, versionBody, if_neg h]
  · have hlines : ∀ line ∈ (sortByKey dir).map (fun p => versionLine p.1 p.2),
        ∃ s, line = s ++ "\n" := by
      intro line hl
      obtain ⟨p, _, rfl⟩ := List.mem_map.mp hl
      exact versionLine_trailing p.1 p.2
    have hhead : "Provider versions in " ++ path ++ ":\n" =
        ("Provider versions in " ++ path ++ ":") ++ "\n" := by
      rw [String.append_assoc ("Provider versions in " ++ path)]
      rfl
    cases hml : (sortByKey dir).map (fun p => versionLine p.1 p.2) with
    | nil =>
      refine ⟨"Provider versions in " ++ path ++ ":", ?_⟩
      rw [printProviderVersions, hml, concatLines, String.append_empty,
        hhead]
    | cons l rest =>
      obtain ⟨t, ht⟩ := concatLines_trailing (l :: rest)
        (hml ▸ hlines) (by simp)
      refine ⟨"Provider versions in " ++ path ++ ":\n" ++ t, ?_⟩
      rw [printProviderVersions, hml, ht, append_newline_assoc]

end Cauldron
